import Mathlib

/-!
# Verification of the go-dns stub resolver library

Shallow embedding of the core of the `go-dns` library (wire codec, message
cache, framing adapters, opportunistic dialer, endpoint rotation), with
theorems checking the natural-language specification against the code.

Byte strings are modelled as `List Nat` (each element a byte value 0..255
where it matters; the code's arithmetic is reproduced exactly, including
`byte(..)` truncations, written `% 256`).  Go `time.Time`/durations are
modelled as `Int` (the code only compares instants and adds second-valued
durations, so a linear integer time is faithful).  Fallible operations
return `Option`.
-/

namespace GoDNS

/-! ## Wire codec (cache.go: getUint16, getUint32, getNameLen, getTTL)

`getUint16`/`getUint32` read big-endian integers from the head of a byte
string; in Go they index `s[0]`, `s[1]`, ... after a bounds check by the
caller, so `List.getD` with default 0 agrees with the code everywhere the
code is defined. -/

def getUint16 (s : List Nat) : Nat :=
  s.getD 1 0 + s.getD 0 0 * 256

def getUint32 (s : List Nat) : Nat :=
  s.getD 3 0 + s.getD 2 0 * 256 + s.getD 1 0 * 65536 + s.getD 0 0 * 16777216

/-- The loop body of Go `getNameLen`: `i` is the cursor, the loop runs while
`i < len(msg)`; each iteration either terminates (zero byte: `i+1`;
compression pointer `>= 0xc0`: `i+2`; reserved label `>= 0x40`: `-1`) or
advances the cursor by `msg[i] + 1 ≥ 2`.  The cursor strictly increases, so
`msg.length` units of fuel are more than the loop can ever consume: the
fuel-0 branch mirrors the loop-exit (`i ≥ len(msg)`) result and is never
reached with the fuel `getNameLen` supplies. -/
def getNameLenAux (msg : List Nat) : Nat → Nat → Int
  | 0, i => (i : Int)
  | fuel + 1, i =>
    if h : i < msg.length then
      if msg[i] = 0 then ((i + 1 : Nat) : Int)
      else if 0xc0 ≤ msg[i] then ((i + 2 : Nat) : Int)
      else if 0x40 ≤ msg[i] then -1
      else getNameLenAux msg fuel (i + msg[i] + 1)
    else (i : Int)

/-- Go `getNameLen` (cache.go): length of the DNS name at the head of `msg`,
or `-1` on a reserved label type. -/
def getNameLen (msg : List Nat) : Int :=
  getNameLenAux msg (msg.length + 1) 0

/-- The questions-skipping loop of Go `getTTL`: skips `qd` questions, each a
name followed by 4 bytes of qtype/qclass; `none` models the early
`return -1`. -/
def skipQuestions : Nat → List Nat → Option (List Nat)
  | 0, msg => some msg
  | qd + 1, msg =>
    let name := getNameLen msg
    if name < 0 ∨ (name + 4 : Int) > (msg.length : Int) then none
    else skipQuestions qd (msg.drop (name.toNat + 4))

/-- The record-parsing loop of Go `getTTL`: iterates `rd` records, each a
name, 2 bytes type, 2 bytes class, 4 bytes TTL, 2 bytes RDLENGTH and
RDLENGTH bytes of data; accumulates the running minimum TTL in `ttl`;
`none` models the early `return -1`. -/
def minTTLRecords : Nat → List Nat → Int → Option Int
  | 0, _, ttl => some ttl
  | rd + 1, msg, ttl =>
    let name := getNameLen msg
    if name < 0 ∨ (name + 10 : Int) > (msg.length : Int) then none
    else
      let n := name.toNat
      let rttl := getUint32 (msg.drop (n + 4))
      let rlen := getUint16 (msg.drop (n + 8))
      if n + 10 + rlen > msg.length then none
      else minTTLRecords rd (msg.drop (n + 10 + rlen))
        (if (rttl : Int) < ttl then (rttl : Int) else ttl)

/-- Go `getTTL` (cache.go), in seconds.  The Go function returns
`time.Duration(ttl) * time.Second`; multiplying by the positive constant
`time.Second` preserves sign and order and cannot overflow
(`MaxInt32 * 10^9 < 2^63`), so the second-valued integer is the faithful
model.  `ttl` starts at `math.MaxInt32 = 2147483647`. -/
def getTTL (msg : List Nat) : Int :=
  let qdcount := getUint16 (msg.drop 4)
  let ancount := getUint16 (msg.drop 6)
  let nscount := getUint16 (msg.drop 8)
  let arcount := getUint16 (msg.drop 10)
  let rdcount := ancount + nscount + arcount
  match skipQuestions qdcount (msg.drop 12) with
  | none => -1
  | some body =>
    match minTTLRecords rdcount body 2147483647 with
    | none => -1
    | some ttl => ttl

example : getNameLen [0] = 1 := by decide
example : getNameLen [3, 97, 98, 99, 0] = 5 := by decide
example : getNameLen [0xc0, 12] = 2 := by decide
example : getNameLen [0x40, 0] = -1 := by decide
example : getTTL (List.replicate 12 0) = 2147483647 := by decide

/-! ## Stream framing (conn.go: fillBuffer, writeMessage, drainBuffers,
readMessage)

`frame_stream` is the 2-byte big-endian length prefix written by
`dnsConn.fillBuffer` and `writeMessage` (`byte(len(msg) >> 8)`,
`byte(len(msg))`; the Go `byte(..)` conversion truncates mod 256).
`unframe_stream` is the prefix-driven extraction of one message performed
by `dnsConn.drainBuffers` and `readMessage`
(`size := int64(sz[0])<<8 | int64(sz[1])`, then exactly `size` bytes are
consumed; fewer available is the error `io.ErrUnexpectedEOF`, modelled
`none`). -/

def frame_stream (msg : List Nat) : List Nat :=
  (msg.length >>> 8) % 256 :: msg.length % 256 :: msg

def unframe_stream (s : List Nat) : Option (List Nat) :=
  match s with
  | szhi :: szlo :: rest =>
    let size := (szhi <<< 8) ||| szlo
    if rest.length < size then none else some (rest.take size)
  | _ => none

theorem shiftLeft_eight_lor (a b : Nat) (hb : b < 256) :
    (a <<< 8) ||| b = a * 256 + b := by
  apply Nat.eq_of_testBit_eq
  intro i
  have h256 : (256 : Nat) = 2 ^ 8 := by norm_num
  have hb2 : b < 2 ^ 8 := h256 ▸ hb
  have hcomm : a * 256 + b = 2 ^ 8 * a + b := by rw [h256]; ring
  rw [Nat.testBit_lor, Nat.testBit_shiftLeft, hcomm, Nat.testBit_mul_pow_two_add a hb2 i]
  by_cases hi : i < 8
  · have h8 : ¬ (8 ≤ i) := by omega
    simp [hi, h8]
  · have h8 : 8 ≤ i := by omega
    have hbf : Nat.testBit b i = false :=
      Nat.testBit_lt_two_pow (lt_of_lt_of_le hb2 (Nat.pow_le_pow_right (by norm_num) h8))
    simp [hi, h8, hbf]

/-- C7 — Round-trip framing: for every byte sequence `m` with
`12 ≤ len(m) ≤ 65535`, framing `m` with its 2-byte big-endian length prefix
(`fillBuffer` / `writeMessage`) and extracting one framed message
(`drainBuffers` / `readMessage`) yields exactly `m`. -/
theorem frame_unframe_roundtrip (m : List Nat) (h12 : 12 ≤ m.length)
    (h65535 : m.length ≤ 65535) : unframe_stream (frame_stream m) = some m := by
  unfold frame_stream unframe_stream
  dsimp only
  have hlo : m.length % 256 < 256 := Nat.mod_lt _ (by norm_num)
  have hhi : (m.length >>> 8) % 256 = m.length / 256 := by
    rw [Nat.shiftRight_eq_div_pow]
    have : m.length / 2 ^ 8 < 256 := by omega
    simpa using Nat.mod_eq_of_lt this
  rw [hhi, shiftLeft_eight_lor _ _ hlo]
  have hsz : m.length / 256 * 256 + m.length % 256 = m.length := by omega
  simp only [hsz, lt_irrefl, if_false, List.take_length]

/-- Witness for C7 at a concrete 12-byte message. -/
theorem frame_unframe_roundtrip_witness :
    unframe_stream (frame_stream (List.replicate 12 7)) = some (List.replicate 12 7) :=
  frame_unframe_roundtrip (List.replicate 12 7) (by decide) (by decide)

/-! ## Structured DNS messages and their serialization

Spec-side data for stating what `getTTL` computes on well-formed wire
messages (RFC 1035 shape, as described in the spec's data model): a name is
a sequence of length-prefixed labels (label bytes 1..0x3f) terminated by a
zero byte or by a 2-byte compression pointer (first byte ≥ 0xc0). -/

inductive ValidName : List Nat → Prop
  | root : ValidName [0]
  | ptr (b c : Nat) : 0xc0 ≤ b → ValidName [b, c]
  | label (b : Nat) (lab rest : List Nat) :
      1 ≤ b → b ≤ 0x3f → lab.length = b → ValidName rest →
      ValidName (b :: (lab ++ rest))

theorem ValidName.length_pos {nm : List Nat} (h : ValidName nm) : 0 < nm.length := by
  cases h <;> simp

/-- The name walk of `getNameLen`, started at offset `i` of a message whose
remainder begins with a valid name, consumes exactly that name. -/
theorem getNameLenAux_valid {nm : List Nat} (hv : ValidName nm) :
    ∀ (msg : List Nat) (i : Nat) (tail : List Nat) (fuel : Nat),
      msg.drop i = nm ++ tail → nm.length ≤ fuel →
      getNameLenAux msg fuel i = ((i + nm.length : Nat) : Int) := by
  induction hv with
  | root =>
    intro msg i tail fuel hdrop hfuel
    obtain ⟨f, rfl⟩ : ∃ f, fuel = f + 1 := ⟨fuel - 1, by simp at hfuel; omega⟩
    have h0 : msg[i]? = some 0 := by
      have := List.getElem?_drop msg i 0
      rw [hdrop] at this
      simpa using this.symm
    rw [List.getElem?_eq_some] at h0
    obtain ⟨hi, hb⟩ := h0
    simp [getNameLenAux, hi, hb]
  | ptr b c hb =>
    intro msg i tail fuel hdrop hfuel
    obtain ⟨f, rfl⟩ : ∃ f, fuel = f + 1 := ⟨fuel - 1, by simp at hfuel; omega⟩
    have h0 : msg[i]? = some b := by
      have := List.getElem?_drop msg i 0
      rw [hdrop] at this
      simpa using this.symm
    rw [List.getElem?_eq_some] at h0
    obtain ⟨hi, hbi⟩ := h0
    have hne : ¬ (b = 0) := by omega
    simp [getNameLenAux, hi, hbi, hne, hb]
  | label b lab rest hb1 hb2 hlab hrest ih =>
    intro msg i tail fuel hdrop hfuel
    simp only [List.length_cons, List.length_append, hlab] at hfuel
    obtain ⟨f, rfl⟩ : ∃ f, fuel = f + 1 := ⟨fuel - 1, by omega⟩
    have h0 : msg[i]? = some b := by
      have := List.getElem?_drop msg i 0
      rw [hdrop] at this
      simpa using this.symm
    rw [List.getElem?_eq_some] at h0
    obtain ⟨hi, hbi⟩ := h0
    have hne : ¬ (b = 0) := by omega
    have hnc : ¬ (0xc0 ≤ b) := by omega
    have hnr : ¬ (0x40 ≤ b) := by omega
    have hdrop2 : msg.drop (i + b + 1) = rest ++ tail := by
      have h1 : msg.drop (i + 1) = lab ++ (rest ++ tail) := by
        have := List.drop_drop 1 i msg
        rw [hdrop] at this
        simpa [Nat.add_comm] using this.symm
      have h2 : msg.drop (i + 1 + b) = (lab ++ (rest ++ tail)).drop b := by
        have := List.drop_drop b (i + 1) msg
        rw [h1] at this
        simpa [Nat.add_comm] using this.symm
      calc msg.drop (i + b + 1) = msg.drop (i + 1 + b) := by ring_nf
        _ = (lab ++ (rest ++ tail)).drop b := h2
        _ = rest ++ tail := by rw [← hlab, List.drop_left]
    have ihr := ih msg (i + b + 1) tail f hdrop2 (by omega)
    simp only [getNameLenAux, hi, hbi, hne, hnc, hnr, dif_pos, if_false, if_neg]
    rw [ihr]
    have harith : i + b + 1 + rest.length = i + (b :: (lab ++ rest)).length := by
      simp only [List.length_cons, List.length_append, hlab]
      omega
    exact congrArg _ harith

theorem getNameLen_valid {nm : List Nat} (hv : ValidName nm) (tail : List Nat) :
    getNameLen (nm ++ tail) = (nm.length : Int) := by
  unfold getNameLen
  have := getNameLenAux_valid hv (nm ++ tail) 0 tail ((nm ++ tail).length + 1)
    (by simp) (by simp; omega)
  simpa using this

/-- Big-endian 2-byte encoding, as the wire format stores counts and
RDLENGTH. -/
def be16 (n : Nat) : List Nat := [n / 256 % 256, n % 256]

/-- Big-endian 4-byte encoding, as the wire format stores TTLs. -/
def be32 (n : Nat) : List Nat :=
  [n / 16777216 % 256, n / 65536 % 256, n / 256 % 256, n % 256]

theorem getUint16_be16 (n : Nat) (h : n < 65536) (rest : List Nat) :
    getUint16 (be16 n ++ rest) = n := by
  simp only [getUint16, be16, List.cons_append, List.nil_append, List.getD_cons_zero,
    List.getD_cons_succ]
  omega

theorem getUint32_be32 (n : Nat) (h : n < 4294967296) (rest : List Nat) :
    getUint32 (be32 n ++ rest) = n := by
  simp only [getUint32, be32, List.cons_append, List.nil_append, List.getD_cons_zero,
    List.getD_cons_succ]
  omega

/-- A question section entry: a name followed by 4 bytes of qtype/qclass. -/
structure Question where
  name : List Nat
  extra : List Nat

def Question.WF (q : Question) : Prop :=
  ValidName q.name ∧ q.extra.length = 4

def encodeQuestion (q : Question) : List Nat :=
  q.name ++ q.extra

/-- A resource record: a name, 2 bytes type + 2 bytes class (`tc`), a 4-byte
TTL, and RDLENGTH-prefixed data. -/
structure RR where
  name : List Nat
  tc : List Nat
  ttl : Nat
  rdata : List Nat

def RR.WF (r : RR) : Prop :=
  ValidName r.name ∧ r.tc.length = 4 ∧ r.ttl < 4294967296 ∧ r.rdata.length < 65536

def encodeRR (r : RR) : List Nat :=
  r.name ++ r.tc ++ be32 r.ttl ++ be16 r.rdata.length ++ r.rdata

/-- A wire message with the given ID and flag bytes, question/record counts
taken from the component lists (`an`/`ns`/`ar` split the record count). -/
def serializeMsg (id2 flags2 : List Nat) (an ns ar : Nat)
    (qs : List Question) (rs : List RR) : List Nat :=
  id2 ++ flags2 ++ be16 qs.length ++ be16 an ++ be16 ns ++ be16 ar ++
    (qs.map encodeQuestion).join ++ (rs.map encodeRR).join

theorem skipQuestions_encode (qs : List Question) (rest : List Nat)
    (hwf : ∀ q ∈ qs, q.WF) :
    skipQuestions qs.length ((qs.map encodeQuestion).join ++ rest) = some rest := by
  induction qs generalizing rest with
  | nil => simp [skipQuestions]
  | cons q qs ih =>
    obtain ⟨hq, hqs⟩ := List.forall_mem_cons.mp hwf
    obtain ⟨hname, hextra⟩ := hq
    have hmsg : (((q :: qs).map encodeQuestion).join ++ rest)
        = q.name ++ (q.extra ++ ((qs.map encodeQuestion).join ++ rest)) := by
      simp [encodeQuestion]
    rw [List.length_cons, skipQuestions, hmsg, getNameLen_valid hname]
    have hlen : (q.name ++ (q.extra ++ ((qs.map encodeQuestion).join ++ rest))).length
        = q.name.length + 4 + ((qs.map encodeQuestion).join ++ rest).length := by
      simp [hextra]; omega
    have hcond : ¬ (((q.name.length : Int)) < 0 ∨
        ((q.name.length : Int) + 4 : Int) >
          ((q.name ++ (q.extra ++ ((qs.map encodeQuestion).join ++ rest))).length : Int)) := by
      rw [hlen]
      push_cast
      omega
    rw [if_neg hcond]
    have hdrop : (q.name ++ (q.extra ++ ((qs.map encodeQuestion).join ++ rest))).drop
        ((q.name.length : Int).toNat + 4) = (qs.map encodeQuestion).join ++ rest := by
      have : (q.name.length : Int).toNat + 4 = (q.name ++ q.extra).length := by
        simp [hextra]
      rw [this, ← List.append_assoc, List.drop_left]
    rw [hdrop]
    exact ih rest hqs

theorem minTTLRecords_encode (rs : List RR) (rest : List Nat) (acc : Int)
    (hwf : ∀ r ∈ rs, r.WF) :
    minTTLRecords rs.length ((rs.map encodeRR).join ++ rest) acc
      = some (rs.foldl (fun a r => min a (r.ttl : Int)) acc) := by
  induction rs generalizing rest acc with
  | nil => simp [minTTLRecords]
  | cons r rs ih =>
    obtain ⟨hr, hrs⟩ := List.forall_mem_cons.mp hwf
    obtain ⟨hname, htc, httl, hrd⟩ := hr
    have hmsg : (((r :: rs).map encodeRR).join ++ rest)
        = r.name ++ (r.tc ++ be32 r.ttl ++ be16 r.rdata.length ++ r.rdata ++
            ((rs.map encodeRR).join ++ rest)) := by
      simp [encodeRR]
    have hlen : (((r :: rs).map encodeRR).join ++ rest).length
        = r.name.length + 10 + r.rdata.length + ((rs.map encodeRR).join ++ rest).length := by
      rw [hmsg]
      simp [htc, be32, be16]
      omega
    rw [List.length_cons, minTTLRecords, hmsg, getNameLen_valid hname]
    rw [← hmsg]
    have hcond : ¬ (((r.name.length : Int)) < 0 ∨
        ((r.name.length : Int) + 10 : Int) > ((((r :: rs).map encodeRR).join ++ rest).length : Int)) := by
      rw [hlen]
      push_cast
      omega
    rw [if_neg hcond]
    have htoNat : (r.name.length : Int).toNat = r.name.length := by simp
    have hdrop4 : (((r :: rs).map encodeRR).join ++ rest).drop (r.name.length + 4)
        = be32 r.ttl ++ (be16 r.rdata.length ++ r.rdata ++ ((rs.map encodeRR).join ++ rest)) := by
      rw [hmsg]
      have : r.name.length + 4 = (r.name ++ r.tc).length := by simp [htc]
      rw [this]
      have hre : r.name ++ (r.tc ++ be32 r.ttl ++ be16 r.rdata.length ++ r.rdata ++
            ((rs.map encodeRR).join ++ rest))
          = (r.name ++ r.tc) ++ (be32 r.ttl ++ (be16 r.rdata.length ++ r.rdata ++
            ((rs.map encodeRR).join ++ rest))) := by
        simp
      rw [hre, List.drop_left]
    have hdrop8 : (((r :: rs).map encodeRR).join ++ rest).drop (r.name.length + 8)
        = be16 r.rdata.length ++ (r.rdata ++ ((rs.map encodeRR).join ++ rest)) := by
      rw [hmsg]
      have : r.name.length + 8 = (r.name ++ r.tc ++ be32 r.ttl).length := by
        simp [htc, be32]
      rw [this]
      have hre : r.name ++ (r.tc ++ be32 r.ttl ++ be16 r.rdata.length ++ r.rdata ++
            ((rs.map encodeRR).join ++ rest))
          = (r.name ++ r.tc ++ be32 r.ttl) ++ (be16 r.rdata.length ++ (r.rdata ++
            ((rs.map encodeRR).join ++ rest))) := by
        simp
      rw [hre, List.drop_left]
    dsimp only
    rw [htoNat, hdrop4, hdrop8, getUint32_be32 _ httl, getUint16_be16 _ hrd]
    have hcond2 : ¬ (r.name.length + 10 + r.rdata.length
        > (((r :: rs).map encodeRR).join ++ rest).length) := by
      omega
    rw [if_neg hcond2]
    have hdropAll : (((r :: rs).map encodeRR).join ++ rest).drop
        (r.name.length + 10 + r.rdata.length) = (rs.map encodeRR).join ++ rest := by
      rw [hmsg]
      have : r.name.length + 10 + r.rdata.length
          = (r.name ++ (r.tc ++ be32 r.ttl ++ be16 r.rdata.length ++ r.rdata)).length := by
        simp [htc, be32, be16]
        omega
      rw [this]
      have hre : r.name ++ (r.tc ++ be32 r.ttl ++ be16 r.rdata.length ++ r.rdata ++
            ((rs.map encodeRR).join ++ rest))
          = (r.name ++ (r.tc ++ be32 r.ttl ++ be16 r.rdata.length ++ r.rdata)) ++
            ((rs.map encodeRR).join ++ rest) := by
        simp
      rw [hre, List.drop_left]
    rw [hdropAll]
    have hmin : (if (r.ttl : Int) < acc then (r.ttl : Int) else acc) = min acc (r.ttl : Int) := by
      rcases lt_or_ge (r.ttl : Int) acc with h | h
      · simp [h, min_eq_right (le_of_lt h)]
      · simp [not_lt.mpr h, min_eq_left h]
    rw [hmin, List.foldl_cons]
    exact ih _ _ hrs

theorem minTTLRecords_nonneg :
    ∀ (rd : Nat) (msg : List Nat) (acc : Int), 0 ≤ acc →
      ∀ t, minTTLRecords rd msg acc = some t → 0 ≤ t := by
  intro rd
  induction rd with
  | zero =>
    intro msg acc hacc t ht
    simp [minTTLRecords] at ht
    omega
  | succ rd ih =>
    intro msg acc hacc t ht
    rw [minTTLRecords] at ht
    by_cases hc : getNameLen msg < 0 ∨ ((getNameLen msg) + 10 : Int) > (msg.length : Int)
    · simp [hc] at ht
    · rw [if_neg hc] at ht
      dsimp only at ht
      by_cases hc2 : (getNameLen msg).toNat + 10 +
          getUint16 (msg.drop ((getNameLen msg).toNat + 8)) > msg.length
      · simp [hc2] at ht
      · rw [if_neg hc2] at ht
        refine ih _ _ ?_ _ ht
        have : (0 : Int) ≤ (getUint32 (msg.drop ((getNameLen msg).toNat + 4)) : Int) := by
          positivity
        split <;> omega

theorem getTTL_ge_neg_one (msg : List Nat) : -1 ≤ getTTL msg := by
  unfold getTTL
  dsimp only
  cases hs : skipQuestions (getUint16 (msg.drop 4)) (msg.drop 12) with
  | none => dsimp only; omega
  | some body =>
    cases hm : minTTLRecords (getUint16 (msg.drop 6) + getUint16 (msg.drop 8) +
        getUint16 (msg.drop 10)) body 2147483647 with
    | none => dsimp only; rw [hm]
    | some t =>
      have := minTTLRecords_nonneg _ _ _ (by norm_num) _ hm
      dsimp only
      rw [hm]
      dsimp only
      omega

theorem getTTL_serializeMsg (id2 flags2 : List Nat) (an ns ar : Nat)
    (qs : List Question) (rs : List RR)
    (hid : id2.length = 2) (hfl : flags2.length = 2) (hq : qs.length < 65536)
    (han : an < 65536) (hns : ns < 65536) (har : ar < 65536)
    (hcount : an + ns + ar = rs.length)
    (hqwf : ∀ q ∈ qs, q.WF) (hrwf : ∀ r ∈ rs, r.WF) :
    getTTL (serializeMsg id2 flags2 an ns ar qs rs)
      = rs.foldl (fun a r => min a (r.ttl : Int)) 2147483647 := by
  set msg := serializeMsg id2 flags2 an ns ar qs rs with hmsgdef
  have hmsg : msg = (id2 ++ flags2) ++ (be16 qs.length ++ (be16 an ++ (be16 ns ++
      (be16 ar ++ ((qs.map encodeQuestion).join ++ (rs.map encodeRR).join))))) := by
    simp [hmsgdef, serializeMsg]
  have hdrop4 : msg.drop 4 = be16 qs.length ++ (be16 an ++ (be16 ns ++
      (be16 ar ++ ((qs.map encodeQuestion).join ++ (rs.map encodeRR).join)))) := by
    rw [hmsg]
    have h4 : 4 = (id2 ++ flags2).length := by simp [hid, hfl]
    rw [h4, List.drop_left]
  have hdrop6 : msg.drop 6 = be16 an ++ (be16 ns ++
      (be16 ar ++ ((qs.map encodeQuestion).join ++ (rs.map encodeRR).join))) := by
    have := List.drop_drop 2 4 msg
    rw [hdrop4] at this
    rw [show (6 : Nat) = 2 + 4 by norm_num, ← this]
    have h2 : 2 = (be16 qs.length).length := by simp [be16]
    rw [h2, List.drop_left]
  have hdrop8 : msg.drop 8 = be16 ns ++
      (be16 ar ++ ((qs.map encodeQuestion).join ++ (rs.map encodeRR).join)) := by
    have := List.drop_drop 2 6 msg
    rw [hdrop6] at this
    rw [show (8 : Nat) = 2 + 6 by norm_num, ← this]
    have h2 : 2 = (be16 an).length := by simp [be16]
    rw [h2, List.drop_left]
  have hdrop10 : msg.drop 10 = be16 ar ++
      ((qs.map encodeQuestion).join ++ (rs.map encodeRR).join) := by
    have := List.drop_drop 2 8 msg
    rw [hdrop8] at this
    rw [show (10 : Nat) = 2 + 8 by norm_num, ← this]
    have h2 : 2 = (be16 ns).length := by simp [be16]
    rw [h2, List.drop_left]
  have hdrop12 : msg.drop 12 = (qs.map encodeQuestion).join ++ (rs.map encodeRR).join := by
    have := List.drop_drop 2 10 msg
    rw [hdrop10] at this
    rw [show (12 : Nat) = 2 + 10 by norm_num, ← this]
    have h2 : 2 = (be16 ar).length := by simp [be16]
    rw [h2, List.drop_left]
  unfold getTTL
  dsimp only
  rw [hdrop4, hdrop6, hdrop8, hdrop10, hdrop12,
    getUint16_be16 _ hq, getUint16_be16 _ han, getUint16_be16 _ hns, getUint16_be16 _ har,
    skipQuestions_encode qs _ hqwf]
  dsimp only
  rw [hcount]
  have := minTTLRecords_encode rs [] 2147483647 hrwf
  rw [List.append_nil] at this
  rw [this]

/-- C1 counterexample: a 12-byte message whose header counts are all zero
(in particular `ANCOUNT + NSCOUNT + ARCOUNT = 0`) parses, and `getTTL`
returns `MaxInt32` seconds — a strictly positive value, not the
zero-or-negative value the claim requires, so the caller caches such a
message instead of treating it as not cacheable. -/
theorem getTTL_no_records_positive :
    getTTL (List.replicate 12 0) = 2147483647 ∧ 0 < getTTL (List.replicate 12 0) := by
  decide

/-- C1 (amended) — `getTTL` on a well-formed message (header counts parse
and every question/record fits the buffer) returns
`min(MaxInt32, minimum TTL across all resource records)` in seconds, where
the minimum of an empty record set is `MaxInt32 = 2147483647` — a positive
value, so messages without resource records are treated as cacheable; and
every `getTTL` result is at least `-1`, the error value produced on
truncated or unparseable messages. -/
theorem getTTL_min_ttl (id2 flags2 : List Nat) (an ns ar : Nat)
    (qs : List Question) (rs : List RR)
    (hid : id2.length = 2) (hfl : flags2.length = 2) (hq : qs.length < 65536)
    (han : an < 65536) (hns : ns < 65536) (har : ar < 65536)
    (hcount : an + ns + ar = rs.length)
    (hqwf : ∀ q ∈ qs, q.WF) (hrwf : ∀ r ∈ rs, r.WF) :
    getTTL (serializeMsg id2 flags2 an ns ar qs rs)
        = rs.foldl (fun a r => min a (r.ttl : Int)) 2147483647
      ∧ (rs = [] → getTTL (serializeMsg id2 flags2 an ns ar qs rs) = 2147483647)
      ∧ (∀ msg : List Nat, -1 ≤ getTTL msg) := by
  have h := getTTL_serializeMsg id2 flags2 an ns ar qs rs hid hfl hq han hns har
    hcount hqwf hrwf
  refine ⟨h, ?_, getTTL_ge_neg_one⟩
  intro hrs
  subst hrs
  simpa using h

/-- Witness for C1 (amended) at a concrete response with one 30-second
record. -/
theorem getTTL_min_ttl_witness :
    getTTL (serializeMsg [0, 0] [128, 0] 1 0 0 []
      [RR.mk [0] [0, 1, 0, 1] 30 [1, 2, 3, 4]]) = 30 := by
  have h := getTTL_min_ttl [0, 0] [128, 0] 1 0 0 []
    [RR.mk [0] [0, 1, 0, 1] 30 [1, 2, 3, 4]]
    (by decide) (by decide) (by decide) (by decide) (by decide) (by decide)
    (by decide) (by simp)
    (by
      intro r hr
      simp at hr
      subst hr
      exact ⟨ValidName.root, by decide, by decide, by decide⟩)
  rw [h.1]
  decide

/-! ## The message cache (cache.go: cache.put, cache.get)

The cache is `map[string]cacheEntry`, modelled as an association list whose
list order stands for the (unspecified) Go map iteration order; all theorems
quantify over the list, hence over every possible probing order.  `put`'s
eviction loop iterates the map, deleting expired entries as it probes and
breaking after the 8th probe (with a forced deletion of that 8th entry when
nothing was expired and the table holds at least 1000 entries). -/

structure cacheEntry where
  deadline : Int
  value : List Nat
deriving DecidableEq

abbrev cacheEntries : Type := List (List Nat × cacheEntry)

/-- Go map lookup `c.entries[k]`. -/
def entriesLookup (k : List Nat) : cacheEntries → Option cacheEntry
  | [] => none
  | (k', v) :: rest => if k' = k then some v else entriesLookup k rest

/-- Go map assignment `c.entries[k] = v`: replaces the binding or adds one. -/
def entriesInsert (k : List Nat) (v : cacheEntry) : cacheEntries → cacheEntries
  | [] => [(k, v)]
  | (k', v') :: rest =>
    if k' = k then (k, v) :: rest else (k', v') :: entriesInsert k v rest

/-- The eviction loop of `cache.put`.  `total` is `len(c.entries)` at entry
(the live size is `total - evicted`, and the forced-deletion branch is only
reached with `evicted = 0`, where the live size equals `total` — exactly
the code's `len(c.entries) >= 1000` test). -/
def putEvict (now : Int) (total : Nat) : cacheEntries → Nat → Nat → cacheEntries
  | [], _, _ => []
  | (k, e) :: rest, tested, evicted =>
    if e.deadline ≤ now then
      if tested + 1 < 8 then putEvict now total rest (tested + 1) (evicted + 1)
      else rest
    else
      if tested + 1 < 8 then (k, e) :: putEvict now total rest (tested + 1) evicted
      else if evicted = 0 ∧ 1000 ≤ total then rest
      else (k, e) :: rest

/-- Go `cache.put(req, res)` (cache.go).  `now` is the current instant in
seconds; the inserted deadline is `now + ttl` (`time.Now().Add(ttl)`). -/
def cachePut (now : Int) (c : cacheEntries) (req res : List Nat) : cacheEntries :=
  if req.length < 12 ∨ res.length < 12 then c
  else if 0x7f ≤ req.getD 2 0 ∨ res.getD 2 0 < 0x7f then c
  else if req.getD 0 0 ≠ res.getD 0 0 ∨ req.getD 1 0 ≠ res.getD 1 0 then c
  else
    let ttl := getTTL res
    if ttl ≤ 0 then c
    else entriesInsert (req.drop 2) ⟨now + ttl, res.drop 2⟩ (putEvict now c.length c 0 0)

/-- Go `cache.get(req)` (cache.go); `none` models the empty-string miss. -/
def cacheGet (now : Int) (c : cacheEntries) (req : List Nat) : Option (List Nat) :=
  if req.length < 12 then none
  else if 0x7f ≤ req.getD 2 0 then none
  else
    match entriesLookup (req.drop 2) c with
    | some entry => if now < entry.deadline then some (req.take 2 ++ entry.value) else none
    | none => none

/-- C2 counterexample: `put` checks `res[2] < 0x7f`, not the QR bit
`res[2] < 0x80`, so a response whose byte 2 is `0x7f` — QR bit 0, i.e. a
query — is accepted, stored, and later returned by `get`: the cache returns
a response whose QR bit is 0. -/
theorem cache_returns_qr0_response :
    cacheGet 0 (cachePut 0 [] (List.replicate 12 0) ([0, 0, 127] ++ List.replicate 9 0))
        (List.replicate 12 0)
      = some ([0, 0, 127] ++ List.replicate 9 0)
    ∧ ([0, 0, 127] ++ List.replicate 9 0).getD 2 0 &&& 0x80 = 0 := by
  decide

theorem entriesLookup_mem {k : List Nat} {e : cacheEntry} :
    ∀ {c : cacheEntries}, entriesLookup k c = some e → (k, e) ∈ c := by
  intro c
  induction c with
  | nil => intro h; simp [entriesLookup] at h
  | cons p rest ih =>
    intro h
    rw [entriesLookup] at h
    split at h
    · rename_i heq
      cases p
      simp at heq h
      simp [heq, h]
    · exact List.mem_cons_of_mem _ (ih h)

theorem entriesInsert_mem {k : List Nat} {v : cacheEntry} {p : List Nat × cacheEntry} :
    ∀ {c : cacheEntries}, p ∈ entriesInsert k v c → p = (k, v) ∨ p ∈ c := by
  intro c
  induction c with
  | nil => intro h; simp [entriesInsert] at h; simp [h]
  | cons q rest ih =>
    intro h
    rw [entriesInsert] at h
    split at h
    · rcases List.mem_cons.mp h with h | h
      · exact Or.inl h
      · exact Or.inr (List.mem_cons_of_mem _ h)
    · rcases List.mem_cons.mp h with h | h
      · exact Or.inr (by simp [h])
      · rcases ih h with h | h
        · exact Or.inl h
        · exact Or.inr (List.mem_cons_of_mem _ h)

theorem putEvict_mem {now : Int} {total : Nat} {p : List Nat × cacheEntry} :
    ∀ (c : cacheEntries) (tested evicted : Nat),
      p ∈ putEvict now total c tested evicted → p ∈ c := by
  intro c
  induction c with
  | nil => intro tested evicted h; simp [putEvict] at h
  | cons q rest ih =>
    intro tested evicted h
    obtain ⟨k, e⟩ := q
    rw [putEvict] at h
    split at h
    · split at h
      · exact List.mem_cons_of_mem _ (ih _ _ h)
      · exact List.mem_cons_of_mem _ h
    · split at h
      · rcases List.mem_cons.mp h with h | h
        · simp [h]
        · exact List.mem_cons_of_mem _ (ih _ _ h)
      · split at h
        · exact List.mem_cons_of_mem _ h
        · exact h

/-- The stored-values invariant behind P6: every cached response body starts
with a byte `≥ 0x7f` (its byte 2 on the wire, after the 2-byte ID was
stripped). -/
def cacheInv (c : cacheEntries) : Prop :=
  ∀ p ∈ c, 0x7f ≤ p.2.value.getD 0 0

/-- C2 (amended) — `put` inserts nothing when either message is shorter
than 12 bytes, when `req[2] ≥ 0x7f`, when `res[2] < 0x7f`, or when the IDs
differ; the thresholds are `0x7f`, not the QR bit `0x80`, so a response
with byte 2 = `0x7f` (QR = 0) is accepted.  Consequently every stored
response body and every response returned by `get` has byte 2 `≥ 0x7f`
(which permits the QR-0 value `0x7f`), and `get` never serves a request
whose byte 2 is `≥ 0x7f` (in particular never one with QR bit 1). -/
theorem cache_query_response_matching (now : Int) (c : cacheEntries)
    (req res : List Nat) (hinv : cacheInv c) :
    (req.length < 12 ∨ res.length < 12 ∨ 0x7f ≤ req.getD 2 0 ∨ res.getD 2 0 < 0x7f
        ∨ req.getD 0 0 ≠ res.getD 0 0 ∨ req.getD 1 0 ≠ res.getD 1 0 →
      cachePut now c req res = c)
    ∧ cacheInv (cachePut now c req res)
    ∧ (∀ r, cacheGet now c req = some r →
        0x7f ≤ r.getD 2 0 ∧ req.getD 2 0 < 0x7f) := by
  have getD_drop : ∀ (l : List Nat) (n m : Nat), (l.drop n).getD m 0 = l.getD (n + m) 0 := by
    intro l n m
    simp [List.getD_eq_getElem?_getD, List.getElem?_drop]
  refine ⟨?_, ?_, ?_⟩
  · intro h
    unfold cachePut
    by_cases h1 : req.length < 12 ∨ res.length < 12
    · rw [if_pos h1]
    · rw [if_neg h1]
      by_cases h2 : 0x7f ≤ req.getD 2 0 ∨ res.getD 2 0 < 0x7f
      · rw [if_pos h2]
      · rw [if_neg h2]
        by_cases h3 : req.getD 0 0 ≠ res.getD 0 0 ∨ req.getD 1 0 ≠ res.getD 1 0
        · rw [if_pos h3]
        · exfalso
          push_neg at h1 h2 h3
          rcases h with h | h | h | h | h | h <;> omega
  · unfold cachePut
    by_cases h1 : req.length < 12 ∨ res.length < 12
    · rw [if_pos h1]; exact hinv
    · rw [if_neg h1]
      by_cases h2 : 0x7f ≤ req.getD 2 0 ∨ res.getD 2 0 < 0x7f
      · rw [if_pos h2]; exact hinv
      · rw [if_neg h2]
        by_cases h3 : req.getD 0 0 ≠ res.getD 0 0 ∨ req.getD 1 0 ≠ res.getD 1 0
        · rw [if_pos h3]; exact hinv
        · rw [if_neg h3]
          dsimp only
          by_cases h4 : getTTL res ≤ 0
          · rw [if_pos h4]; exact hinv
          · rw [if_neg h4]
            intro p hp
            rcases entriesInsert_mem hp with hp | hp
            · subst hp
              push_neg at h2
              simpa [getD_drop res 2 0] using h2.2
            · exact hinv p (putEvict_mem c 0 0 hp)
  · intro r hr
    unfold cacheGet at hr
    by_cases h1 : req.length < 12
    · rw [if_pos h1] at hr; exact absurd hr (by simp)
    · rw [if_neg h1] at hr
      by_cases h2 : 0x7f ≤ req.getD 2 0
      · rw [if_pos h2] at hr; exact absurd hr (by simp)
      · rw [if_neg h2] at hr
        refine ⟨?_, by omega⟩
        cases hlk : entriesLookup (req.drop 2) c with
        | none => rw [hlk] at hr; exact absurd hr (by simp)
        | some entry =>
          rw [hlk] at hr
          dsimp only at hr
          by_cases hd : now < entry.deadline
          · rw [if_pos hd] at hr
            have hr' : req.take 2 ++ entry.value = r := by simpa using hr
            subst hr'
            have hlen : (req.take 2).length = 2 := by
              rw [List.length_take]
              omega
            have hval : 0x7f ≤ entry.value.getD 0 0 :=
              hinv _ (entriesLookup_mem hlk)
            rw [List.getD_append_right _ _ _ _ (by omega)]
            simpa [hlen] using hval
          · rw [if_neg hd] at hr
            exact absurd hr (by simp)

/-- Witness for C2 (amended): a 3-byte request is rejected, so `put` leaves
the empty cache empty. -/
theorem cache_query_response_matching_witness :
    cachePut 0 [] [1, 2, 3] (List.replicate 12 0) = [] := by
  have h := cache_query_response_matching 0 [] [1, 2, 3] (List.replicate 12 0)
    (by intro p hp; simp at hp)
  exact h.1 (Or.inl (by decide))

/-- Closed form of the eviction loop, for any iteration order and any
reachable loop state: with `n = 8 - tested` probes left (`1 ≤ n ≤ 8`), the
loop looks only at the first `n` entries of the iteration order; it deletes
the expired ones; and when the starting `evicted` count is 0, none of the
probed entries is expired and the table size is at least 1000, it
additionally deletes the last probed entry. -/
theorem putEvict_go (now : Int) (total : Nat) :
    ∀ (l : cacheEntries) (n evicted : Nat), 1 ≤ n → n ≤ 8 →
      putEvict now total l (8 - n) evicted =
        if n ≤ l.length ∧ evicted = 0 ∧ 1000 ≤ total
            ∧ (l.take n).all (fun p => decide (now < p.2.deadline))
        then l.take (n - 1) ++ l.drop n
        else (l.take n).filter (fun p => decide (now < p.2.deadline)) ++ l.drop n := by
  intro l
  induction l with
  | nil =>
    intro n evicted h1 h8
    rw [putEvict, if_neg (by intro hc; simp at hc; omega)]
    simp
  | cons q rest ih =>
    intro n evicted h1 h8
    obtain ⟨k, e⟩ := q
    obtain ⟨m, rfl⟩ : ∃ m, n = m + 1 := ⟨n - 1, by omega⟩
    rw [putEvict]
    simp only [List.take_succ_cons, List.drop_succ_cons, Nat.add_sub_cancel]
    by_cases hex : e.deadline ≤ now
    · rw [if_pos hex]
      have hfresh : decide (now < e.deadline) = false := by simp; omega
      have hcna : ¬ (m + 1 ≤ ((k, e) :: rest).length ∧ evicted = 0 ∧ 1000 ≤ total
          ∧ (((k, e) :: rest.take m).all fun p => decide (now < p.2.deadline)) = true) := by
        intro hq
        have hall := hq.2.2.2
        rw [List.all_cons, hfresh] at hall
        simp at hall
      by_cases hm1 : 1 ≤ m
      · rw [if_pos (show 8 - (m + 1) + 1 < 8 by omega)]
        have hidx : 8 - (m + 1) + 1 = 8 - m := by omega
        rw [hidx, ih m (evicted + 1) hm1 (by omega)]
        rw [if_neg (fun hq => absurd hq.2.1 (by omega))]
        rw [if_neg hcna, List.filter_cons, hfresh, if_neg (by simp)]
      · have hm0 : m = 0 := by omega
        subst hm0
        rw [if_neg (show ¬ (8 - (0 + 1) + 1 < 8) by omega)]
        rw [if_neg hcna, List.filter_cons, hfresh, if_neg (by simp)]
        simp
    · rw [if_neg hex]
      have hfresh : decide (now < e.deadline) = true := by simp; omega
      by_cases hm1 : 1 ≤ m
      · rw [if_pos (show 8 - (m + 1) + 1 < 8 by omega)]
        have hidx : 8 - (m + 1) + 1 = 8 - m := by omega
        rw [hidx, ih m evicted hm1 (by omega)]
        by_cases hc : m ≤ rest.length ∧ evicted = 0 ∧ 1000 ≤ total
            ∧ ((rest.take m).all fun p => decide (now < p.2.deadline)) = true
        · rw [if_pos hc]
          rw [if_pos (show m + 1 ≤ ((k, e) :: rest).length ∧ evicted = 0 ∧ 1000 ≤ total
              ∧ (((k, e) :: rest.take m).all fun p => decide (now < p.2.deadline)) = true by
            refine ⟨by simp; omega, hc.2.1, hc.2.2.1, ?_⟩
            rw [List.all_cons, hfresh]
            simpa using hc.2.2.2)]
          obtain ⟨m2, rfl⟩ : ∃ m2, m = m2 + 1 := ⟨m - 1, by omega⟩
          rw [List.take_succ_cons]
          simp
        · rw [if_neg hc]
          rw [if_neg (show ¬ (m + 1 ≤ ((k, e) :: rest).length ∧ evicted = 0 ∧ 1000 ≤ total
              ∧ (((k, e) :: rest.take m).all fun p => decide (now < p.2.deadline)) = true) by
            intro hq
            obtain ⟨hq1, hq2, hq3, hq4⟩ := hq
            rw [List.all_cons, Bool.and_eq_true] at hq4
            exact hc ⟨by simp at hq1; omega, hq2, hq3, hq4.2⟩)]
          rw [List.filter_cons, hfresh, if_pos rfl]
          simp
      · have hm0 : m = 0 := by omega
        subst hm0
        rw [if_neg (show ¬ (8 - (0 + 1) + 1 < 8) by omega)]
        by_cases hc : evicted = 0 ∧ 1000 ≤ total
        · rw [if_pos hc]
          rw [if_pos (show 0 + 1 ≤ ((k, e) :: rest).length ∧ evicted = 0 ∧ 1000 ≤ total
              ∧ (((k, e) :: rest.take 0).all fun p => decide (now < p.2.deadline)) = true by
            exact ⟨by simp, hc.1, hc.2, by simp [hfresh]⟩)]
          simp
        · rw [if_neg hc]
          rw [if_neg (show ¬ (0 + 1 ≤ ((k, e) :: rest).length ∧ evicted = 0 ∧ 1000 ≤ total
              ∧ (((k, e) :: rest.take 0).all fun p => decide (now < p.2.deadline)) = true) by
            intro hq
            exact hc ⟨hq.2.1, hq.2.2.1⟩)]
          rw [List.filter_cons, hfresh, if_pos rfl]
          simp

/-- The eviction loop as `put` calls it (`tested = evicted = 0`,
`total = len(c.entries)`). -/
theorem putEvict_eq (now : Int) (l : cacheEntries) :
    putEvict now l.length l 0 0 =
      if 1000 ≤ l.length ∧ (l.take 8).all (fun p => decide (now < p.2.deadline))
      then l.take 7 ++ l.drop 8
      else (l.take 8).filter (fun p => decide (now < p.2.deadline)) ++ l.drop 8 := by
  have h := putEvict_go now l.length l 8 0 (by norm_num) (by norm_num)
  have h0 : (8 : Nat) - 8 = 0 := rfl
  rw [h0] at h
  rw [h]
  by_cases hc : 1000 ≤ l.length
      ∧ (l.take 8).all (fun p => decide (now < p.2.deadline)) = true
  · rw [if_pos ⟨by omega, rfl, hc.1, hc.2⟩, if_pos hc]
  · rw [if_neg (fun hgo => hc ⟨hgo.2.2.1, hgo.2.2.2⟩), if_neg hc]

theorem length_filter_lt_of_all_false {α : Type} {p : α → Bool} :
    ∀ l : List α, l.all p = false → (l.filter p).length < l.length := by
  intro l
  induction l with
  | nil => intro h; simp at h
  | cons a rest ih =>
    intro h
    rw [List.all_cons, Bool.and_eq_false_iff] at h
    rw [List.filter_cons]
    rcases h with h | h
    · rw [h]
      simp only [Bool.false_eq_true, if_false, List.length_cons]
      exact Nat.lt_succ_of_le (List.length_filter_le p rest)
    · have := ih h
      split
      · simpa using this
      · simp only [List.length_cons]
        omega

theorem putEvict_length_le (now : Int) (l : cacheEntries) :
    (putEvict now l.length l 0 0).length ≤ l.length := by
  rw [putEvict_eq]
  split
  · simp only [List.length_append, List.length_take, List.length_drop]
    omega
  · have h1 := List.length_filter_le (fun p => decide (now < p.2.deadline)) (l.take 8)
    simp only [List.length_append, List.length_take, List.length_drop] at h1 ⊢
    omega

theorem putEvict_length_lt (now : Int) (l : cacheEntries) (h : 1000 ≤ l.length) :
    (putEvict now l.length l 0 0).length < l.length := by
  rw [putEvict_eq]
  split
  · simp only [List.length_append, List.length_take, List.length_drop]
    omega
  · rename_i hcond
    have hall : (l.take 8).all (fun p => decide (now < p.2.deadline)) = false := by
      rcases Bool.eq_false_or_eq_true ((l.take 8).all (fun p => decide (now < p.2.deadline)))
        with hb | hb
      · exact absurd ⟨h, hb⟩ hcond
      · exact hb
    have h1 := length_filter_lt_of_all_false _ hall
    simp only [List.length_append, List.length_take, List.length_drop] at h1 ⊢
    omega

theorem entriesInsert_length (k : List Nat) (v : cacheEntry) :
    ∀ c : cacheEntries, (entriesInsert k v c).length ≤ c.length + 1 := by
  intro c
  induction c with
  | nil => simp [entriesInsert]
  | cons q rest ih =>
    rw [entriesInsert]
    split
    · simp
    · simp only [List.length_cons]
      omega

theorem cachePut_length_le (now : Int) (c : cacheEntries) (req res : List Nat)
    (h : c.length ≤ 1001) : (cachePut now c req res).length ≤ 1001 := by
  unfold cachePut
  split
  · exact h
  · split
    · exact h
    · split
      · exact h
      · dsimp only
        split
        · exact h
        · have hins := entriesInsert_length (req.drop 2)
            ⟨now + getTTL res, res.drop 2⟩ (putEvict now c.length c 0 0)
          by_cases hbig : 1000 ≤ c.length
          · have := putEvict_length_lt now c hbig
            omega
          · have := putEvict_length_le now c
            omega

/-- C8 — On each insert the eviction loop inspects at most the first 8
entries of the (arbitrary) probe order, deletes every probed expired entry,
and, when none of the 8 probed entries was expired and the table holds at
least 1000 entries, deletes the 8th probed entry (the closed form below
states all three); consequently a `put` never grows a cache of at most
1001 entries beyond 1001, and after any sequence of inserts starting from
such a cache the size never exceeds `N_MAX + 1 = 1001`. -/
theorem cache_size_bound (now : Int) (l : cacheEntries)
    (ops : List (Int × List Nat × List Nat)) (c0 : cacheEntries)
    (h0 : c0.length ≤ 1001) :
    (putEvict now l.length l 0 0 =
      if 1000 ≤ l.length ∧ (l.take 8).all (fun p => decide (now < p.2.deadline))
      then l.take 7 ++ l.drop 8
      else (l.take 8).filter (fun p => decide (now < p.2.deadline)) ++ l.drop 8)
    ∧ (∀ (t : Int) (c : cacheEntries) (req res : List Nat), c.length ≤ 1001 →
        (cachePut t c req res).length ≤ 1001)
    ∧ (ops.foldl (fun st op => cachePut op.1 st op.2.1 op.2.2) c0).length ≤ 1001 := by
  refine ⟨putEvict_eq now l, fun t c req res h => cachePut_length_le t c req res h, ?_⟩
  induction ops generalizing c0 with
  | nil => exact h0
  | cons op rest ih =>
    rw [List.foldl_cons]
    exact ih _ (cachePut_length_le _ _ _ _ h0)

/-- Witness for C8 at a single concrete insert into the empty cache. -/
theorem cache_size_bound_witness :
    ([((0 : Int), (List.replicate 12 0, List.replicate 12 0))].foldl
      (fun st op => cachePut op.1 st op.2.1 op.2.2) ([] : cacheEntries)).length ≤ 1001 :=
  (cache_size_bound 0 [] [((0 : Int), (List.replicate 12 0, List.replicate 12 0))] []
    (by decide)).2.2

/-! ## The bad-server ring (doh.go: badServers, notBadServer, addBadServer)

The process-wide `badServers` state is a `next` cursor and a fixed 4-slot
array (`list [4]string`), modelled as a structure over a list whose length
stays 4.  The element type is a parameter: the source stores `host:port`
strings; theorems instantiate it as needed. -/

structure BadServers (α : Type) where
  next : Nat
  list : List α
deriving DecidableEq

/-- Go `notBadServer` (doh.go): linear scan of the ring; `false` iff the
address is present. -/
def notBadServer {α : Type} [DecidableEq α] (s : BadServers α) (address : α) : Bool :=
  if address ∈ s.list then false else true

/-- Go `addBadServer` (doh.go): no-op when the address is already present;
otherwise writes it at the cursor and advances the cursor modulo the ring
length (`len(badServers.list) = 4`). -/
def addBadServer {α : Type} [DecidableEq α] (s : BadServers α) (address : α) :
    BadServers α :=
  if address ∈ s.list then s
  else { next := (s.next + 1) % s.list.length, list := s.list.set s.next address }

theorem mem_set_self {α : Type} (a : α) :
    ∀ (l : List α) (n : Nat), n < l.length → a ∈ l.set n a := by
  intro l
  induction l with
  | nil => intro n h; simp at h
  | cons x rest ih =>
    intro n h
    cases n with
    | zero => simp
    | succ n =>
      rw [List.set_cons_succ]
      exact List.mem_cons_of_mem _ (ih n (by simpa using h))

/-- C10 — The bad-server ring keeps exactly 4 slots (so it never holds more
than 4 addresses) and a cursor below 4; `addBadServer` on an address
already present changes nothing (hence it is idempotent); and immediately
after `addBadServer(a)`, `notBadServer(a)` is `false`. -/
theorem badServers_ring {α : Type} [DecidableEq α] (s : BadServers α) (a : α)
    (hlen : s.list.length = 4) (hnext : s.next < 4) :
    ((addBadServer s a).list.length = 4 ∧ (addBadServer s a).next < 4)
    ∧ (a ∈ s.list → addBadServer s a = s)
    ∧ addBadServer (addBadServer s a) a = addBadServer s a
    ∧ notBadServer (addBadServer s a) a = false := by
  have hmem : a ∈ (addBadServer s a).list := by
    unfold addBadServer
    split
    · assumption
    · exact mem_set_self a s.list s.next (by omega)
  refine ⟨⟨?_, ?_⟩, ?_, ?_, ?_⟩
  · unfold addBadServer
    split
    · exact hlen
    · simp [hlen]
  · unfold addBadServer
    split
    · exact hnext
    · simp only
      rw [hlen]
      omega
  · intro h
    unfold addBadServer
    rw [if_pos h]
  · set t := addBadServer s a with ht
    unfold addBadServer
    rw [if_pos hmem]
  · unfold notBadServer
    rw [if_pos hmem]

/-- Witness for C10 at a concrete ring over `Nat` addresses. -/
theorem badServers_ring_witness :
    notBadServer (addBadServer (BadServers.mk 0 [0, 0, 0, 0]) 7) 7 = false :=
  (badServers_ring (BadServers.mk 0 [0, 0, 0, 0]) 7 (by decide) (by decide)).2.2.2

/-! ## The opportunistic dialer (doh.go: getAnOpportunisticDialerFromDialFunc)

Addresses are modelled as host/port pairs (`net.SplitHostPort` /
`net.JoinHostPort` on well-formed `host:port` strings).  A connection is
either a plain dialed socket or a TLS client wrapped around one
(`tls.Client(rawConn, &tls.Config{InsecureSkipVerify: true})`).  The inner
dial function returns `none` for a nil connection (Go's
`rawConn, _ := dial(...)` checks `rawConn != nil`, and the final
`return dial(ctx, network, address)` passes the inner result through).
The context deadline is `Option Int` (`deadline, ok := ctx.Deadline()`),
and `deadline.After(time.Now().Add(2*time.Second))` is `now + 2 < d` in
seconds.  The result carries the returned connection, the updated ring, and
whether the port-853 attempt was made. -/

structure Addr where
  host : String
  port : String
deriving DecidableEq

inductive Conn where
  | raw : Nat → Conn
  | tls : Conn → Conn
deriving DecidableEq

def opportunisticDial (dial : String → Addr → Option Conn) (s : BadServers Addr)
    (now : Int) (deadline : Option Int) (network : String) (address : Addr) :
    Option Conn × BadServers Addr × Bool :=
  if (address.port = "53" ∨ address.port = "domain") ∧ notBadServer s address = true then
    match deadline with
    | some d =>
      if now + 2 < d then
        match dial "tcp" (Addr.mk address.host "853") with
        | some rawConn => (some (Conn.tls rawConn), s, true)
        | none => (dial network address, addBadServer s address, true)
      else (dial network address, s, false)
    | none => (dial network address, s, false)
  else (dial network address, s, false)

/-- C4 counterexample: with target port 53, an empty bad-server ring and a
context with **no** deadline, the code skips the port-853 TLS attempt (the
`ok` of `ctx.Deadline()` is false), although the claim's condition — the
address is not in the ring and no deadline is less than 2 seconds away —
is satisfied. -/
theorem opportunistic_no_deadline_skips_tls :
    (opportunisticDial (fun _ _ => some (Conn.raw 0))
        (BadServers.mk 0 [Addr.mk "" "", Addr.mk "" "", Addr.mk "" "", Addr.mk "" ""])
        0 none "tcp" (Addr.mk "10.0.0.1" "53")).2.2 = false
    ∧ notBadServer (BadServers.mk 0 [Addr.mk "" "", Addr.mk "" "", Addr.mk "" "",
        Addr.mk "" ""]) (Addr.mk "10.0.0.1" "53") = true := by
  decide

/-- C4 (amended) — For every dial whose target port is 53 (or "domain"):
the opportunistic TLS attempt on port 853 is made exactly when the address
is not in the bad-server ring **and the caller's context carries a
deadline strictly more than 2 seconds away**; on success the TLS-wrapped
connection is returned with the ring unchanged; on failure of the port-853
dial the address is added to the ring and the inner dial to the original
address is returned; in every other case (ring hit, no deadline, or
deadline at most 2 seconds away) the inner dial's result is returned
directly with the ring unchanged. -/
theorem opportunistic_dialer_cases
    (dial : String → Addr → Option Conn) (s : BadServers Addr) (now : Int)
    (dl : Option Int) (network : String) (address : Addr)
    (hport : address.port = "53" ∨ address.port = "domain") :
    ((opportunisticDial dial s now dl network address).2.2 = true ↔
      notBadServer s address = true ∧ ∃ d, dl = some d ∧ now + 2 < d)
    ∧ (∀ d rawConn, dl = some d → now + 2 < d → notBadServer s address = true →
        dial "tcp" (Addr.mk address.host "853") = some rawConn →
        opportunisticDial dial s now dl network address
          = (some (Conn.tls rawConn), s, true))
    ∧ (∀ d, dl = some d → now + 2 < d → notBadServer s address = true →
        dial "tcp" (Addr.mk address.host "853") = none →
        opportunisticDial dial s now dl network address
          = (dial network address, addBadServer s address, true))
    ∧ (notBadServer s address = false ∨ dl = none
        ∨ (∃ d, dl = some d ∧ ¬ (now + 2 < d)) →
        opportunisticDial dial s now dl network address
          = (dial network address, s, false)) := by
  refine ⟨⟨?_, ?_⟩, ?_, ?_, ?_⟩
  · intro hflag
    by_cases hnb : notBadServer s address = true
    · cases dl with
      | none =>
        rw [opportunisticDial, if_pos ⟨hport, hnb⟩] at hflag
        simp at hflag
      | some d =>
        by_cases hd : now + 2 < d
        · exact ⟨hnb, d, rfl, hd⟩
        · rw [opportunisticDial, if_pos ⟨hport, hnb⟩] at hflag
          rw [if_neg hd] at hflag
          simp at hflag
    · rw [opportunisticDial.eq_def, if_neg (fun hc => hnb hc.2)] at hflag
      simp at hflag
  · rintro ⟨hnb, d, rfl, hd⟩
    rw [opportunisticDial, if_pos ⟨hport, hnb⟩]
    rw [if_pos hd]
    cases h : dial "tcp" (Addr.mk address.host "853") <;> simp
  · intro d rawConn hdl hd hnb h853
    subst hdl
    rw [opportunisticDial, if_pos ⟨hport, hnb⟩]
    rw [if_pos hd, h853]
  · intro d hdl hd hnb h853
    subst hdl
    rw [opportunisticDial, if_pos ⟨hport, hnb⟩]
    rw [if_pos hd, h853]
  · intro h
    rcases h with hnb | hdl | ⟨d, hdl, hd⟩
    · rw [opportunisticDial.eq_def, if_neg (fun hc => by rw [hnb] at hc; simp at hc)]
    · subst hdl
      by_cases hnb : notBadServer s address = true
      · rw [opportunisticDial, if_pos ⟨hport, hnb⟩]
      · rw [opportunisticDial, if_neg (fun hc => hnb hc.2)]
    · subst hdl
      by_cases hnb : notBadServer s address = true
      · rw [opportunisticDial, if_pos ⟨hport, hnb⟩]
        rw [if_neg hd]
      · rw [opportunisticDial, if_neg (fun hc => hnb hc.2)]

/-- Witness for C4 (amended): a successful port-853 dial with a far
deadline returns the TLS-wrapped connection and leaves the ring
unchanged. -/
theorem opportunistic_dialer_cases_witness :
    opportunisticDial (fun _ _ => some (Conn.raw 1))
        (BadServers.mk 0 [Addr.mk "" "", Addr.mk "" "", Addr.mk "" "", Addr.mk "" ""])
        0 (some 10) "tcp" (Addr.mk "10.0.0.1" "53")
      = (some (Conn.tls (Conn.raw 1)),
          BadServers.mk 0 [Addr.mk "" "", Addr.mk "" "", Addr.mk "" "", Addr.mk "" ""],
          true) :=
  (opportunistic_dialer_cases (fun _ _ => some (Conn.raw 1))
      (BadServers.mk 0 [Addr.mk "" "", Addr.mk "" "", Addr.mk "" "", Addr.mk "" ""])
      0 (some 10) "tcp" (Addr.mk "10.0.0.1" "53") (Or.inl rfl)).2.1
    10 (Conn.raw 1) rfl (by norm_num) (by decide) rfl

/-! ## URI templates (doh.go: parseURITemplate)

The URI is a byte string; byte 123 is the opening brace, byte 125 the
closing brace.  The Go loop copies bytes outside expansions, toggles `exp`
on braces, and errors on a brace that does not toggle (`exp` already set on
an opening brace, or not set on a closing one).  `none` models the
`uri: invalid syntax` error.  Note the loop performs **no** end-of-input
check on `exp`: a trailing unterminated expansion is accepted and simply
dropped. -/

def parseURITemplateAux : List Nat → Bool → List Nat → Option (List Nat)
  | [], _, acc => some acc.reverse
  | c :: rest, exp, acc =>
    if c = 123 then
      if exp then none else parseURITemplateAux rest true acc
    else if c = 125 then
      if exp then parseURITemplateAux rest false acc else none
    else
      parseURITemplateAux rest exp (if exp then acc else c :: acc)

def parseURITemplate (uri : List Nat) : Option (List Nat) :=
  parseURITemplateAux uri false []

/-- Byte view of a string literal (ASCII in all inputs used here). -/
def strBytes (s : String) : List Nat :=
  s.data.map Char.toNat

/-- C3 counterexample: the unbalanced template `https://x/{?dns` from the
spec's example is **accepted**: `parseURITemplate` returns `https://x/`
with no error, so resolver construction does not fail on it. -/
theorem parseURITemplate_unbalanced_accepted :
    parseURITemplate (strBytes "https://x/\x7b?dns") = some (strBytes "https://x/") := by
  decide

/-- A template segment: a literal byte run or a brace-delimited expansion. -/
inductive TemplSeg
  | lit : List Nat → TemplSeg
  | expans : List Nat → TemplSeg

def renderSeg : TemplSeg → List Nat
  | .lit l => l
  | .expans e => 123 :: (e ++ [125])

/-- The template text made of the given segments. -/
def render (segs : List TemplSeg) : List Nat :=
  (segs.map renderSeg).join

/-- The effective URI: every brace-delimited expansion removed. -/
def stripTemplate (segs : List TemplSeg) : List Nat :=
  (segs.map fun s => match s with | .lit l => l | .expans _ => []).join

def NoBrace (l : List Nat) : Prop :=
  ∀ c ∈ l, c ≠ 123 ∧ c ≠ 125

instance (l : List Nat) : Decidable (NoBrace l) :=
  List.decidableBAll _ l

def SegWF : TemplSeg → Prop
  | .lit l => NoBrace l
  | .expans e => NoBrace e

instance : DecidablePred SegWF := fun s =>
  match s with
  | .lit l => inferInstanceAs (Decidable (NoBrace l))
  | .expans e => inferInstanceAs (Decidable (NoBrace e))

theorem parseURITemplateAux_lit (l : List Nat) (h : NoBrace l) :
    ∀ (rest acc : List Nat),
      parseURITemplateAux (l ++ rest) false acc
        = parseURITemplateAux rest false (l.reverse ++ acc) := by
  induction l with
  | nil => intro rest acc; simp
  | cons c tl ih =>
    intro rest acc
    obtain ⟨hc1, hc2⟩ := h c (by simp)
    rw [List.cons_append, parseURITemplateAux, if_neg hc1, if_neg hc2]
    have ihtl := ih (fun x hx => h x (List.mem_cons_of_mem _ hx)) rest (c :: acc)
    simp only [if_neg, Bool.false_eq_true, if_false]
    rw [ihtl]
    simp

theorem parseURITemplateAux_exp (e : List Nat) (h : NoBrace e) :
    ∀ (rest acc : List Nat),
      parseURITemplateAux (e ++ rest) true acc = parseURITemplateAux rest true acc := by
  induction e with
  | nil => intro rest acc; simp
  | cons c tl ih =>
    intro rest acc
    obtain ⟨hc1, hc2⟩ := h c (by simp)
    rw [List.cons_append, parseURITemplateAux, if_neg hc1, if_neg hc2]
    simp only [if_pos]
    exact ih (fun x hx => h x (List.mem_cons_of_mem _ hx)) rest acc

theorem parseURITemplateAux_render (segs : List TemplSeg) (hwf : ∀ s ∈ segs, SegWF s) :
    ∀ (rest acc : List Nat),
      parseURITemplateAux (render segs ++ rest) false acc
        = parseURITemplateAux rest false ((stripTemplate segs).reverse ++ acc) := by
  induction segs with
  | nil => intro rest acc; simp [render, stripTemplate]
  | cons s tl ih =>
    intro rest acc
    have hs := hwf s (by simp)
    have htl := fun x hx => hwf x (List.mem_cons_of_mem _ hx)
    cases s with
    | lit l =>
      have hrender : render (TemplSeg.lit l :: tl) ++ rest = l ++ (render tl ++ rest) := by
        simp [render, renderSeg]
      rw [hrender, parseURITemplateAux_lit l hs, ih htl]
      simp [stripTemplate]
    | expans e =>
      have hrender : render (TemplSeg.expans e :: tl) ++ rest
          = 123 :: (e ++ (125 :: (render tl ++ rest))) := by
        simp [render, renderSeg]
      rw [hrender, parseURITemplateAux]
      rw [if_pos rfl, if_neg (by simp)]
      rw [parseURITemplateAux_exp e hs]
      rw [parseURITemplateAux, if_neg (by norm_num), if_pos rfl, if_pos rfl]
      rw [ih htl]
      simp [stripTemplate]

/-- C3 (amended) — `parseURITemplate` maps a template made of brace-free
literal runs and brace-delimited expansions to the text with every
expansion removed; it errors exactly on a closing brace outside an
expansion or an opening brace inside one; but an **unterminated trailing
expansion is not an error**: the opening brace and everything after it are
silently dropped, and resolver construction succeeds on such input. -/
theorem parseURITemplate_spec (segs : List TemplSeg) (pre e t : List Nat)
    (hwf : ∀ s ∈ segs, SegWF s) (hpre : NoBrace pre) (he : NoBrace e)
    (ht : NoBrace t) :
    parseURITemplate (render segs) = some (stripTemplate segs)
    ∧ parseURITemplate (render segs ++ 123 :: t) = some (stripTemplate segs)
    ∧ parseURITemplate (pre ++ 125 :: t) = none
    ∧ parseURITemplate (pre ++ 123 :: (e ++ 123 :: t)) = none := by
  refine ⟨?_, ?_, ?_, ?_⟩
  · have h := parseURITemplateAux_render segs hwf [] []
    rw [List.append_nil] at h
    rw [parseURITemplate, h, parseURITemplateAux]
    simp
  · rw [parseURITemplate, parseURITemplateAux_render segs hwf _ []]
    rw [parseURITemplateAux, if_pos rfl, if_neg (by simp)]
    have h2 := parseURITemplateAux_exp t ht [] ((stripTemplate segs).reverse ++ [])
    rw [List.append_nil] at h2
    rw [h2, parseURITemplateAux]
    simp
  · rw [parseURITemplate, parseURITemplateAux_lit pre hpre]
    rw [parseURITemplateAux, if_neg (by norm_num), if_pos rfl, if_neg (by simp)]
  · rw [parseURITemplate, parseURITemplateAux_lit pre hpre]
    rw [parseURITemplateAux, if_pos rfl, if_neg (by simp)]
    rw [parseURITemplateAux_exp e he]
    rw [parseURITemplateAux, if_pos rfl, if_pos rfl]

/-- Witness for C3 (amended): the spec's well-formed example
`https://dns.google/dns-query{?dns}` normalizes to
`https://dns.google/dns-query`. -/
theorem parseURITemplate_spec_witness :
    parseURITemplate (render [TemplSeg.lit (strBytes "https://dns.google/dns-query"),
        TemplSeg.expans (strBytes "?dns")])
      = some (stripTemplate [TemplSeg.lit (strBytes "https://dns.google/dns-query"),
          TemplSeg.expans (strBytes "?dns")]) :=
  (parseURITemplate_spec [TemplSeg.lit (strBytes "https://dns.google/dns-query"),
      TemplSeg.expans (strBytes "?dns")] [] [] []
    (by intro s hs; simp at hs; rcases hs with h | h <;> subst h <;> exact (by decide))
    (by decide) (by decide) (by decide)).1

/-! ## Connection reads (doh.go: dohConn.Read; cache.go: cachingConn.Read;
conn.go: dnsConn.Read / drainBuffers / fillBuffer)

Read results are the Go `(n, err)` pair.  Error sentinels: -/

inductive IOErr
  | eof            -- io.EOF
  | unexpectedEOF  -- io.ErrUnexpectedEOF
  | shortBuffer    -- io.ErrShortBuffer
  | errOther       -- any other error (transport, HTTP status, ...)
deriving DecidableEq

/-- The body-reading loop of `dohConn.Read`
(`for n < len(b) && err == nil { i, err = res.Body.Read(b[n:]); n += i }`).
The HTTP body is a deterministic reader: `Read(p)` returns
`min(len(p), remaining)` bytes, or `(0, io.EOF)` when no bytes remain.
Structural fuel: each iteration grows `n` by at least 1 and runs only while
`n < cap`, so `cap + 1` units are never exhausted (the fuel-0 fallback
mirrors the `n < len(b)` loop exit). -/
def dohBodyLoopAux : Nat → List Nat → Nat → Nat → Nat × Option IOErr
  | 0, _, _, n => (n, none)
  | fuel + 1, body, cap, n =>
    if n < cap then
      match body with
      | [] => (n, some IOErr.eof)
      | _ :: _ =>
        let i := min (cap - n) body.length
        dohBodyLoopAux fuel (body.drop i) cap (n + i)
    else (n, none)

def dohBodyLoop (body : List Nat) (cap : Nat) : Nat × Option IOErr :=
  dohBodyLoopAux (cap + 1) body cap 0

/-- The response-reading section of `dohConn.Read` (doh.go lines after the
status check): run the loop; `err == io.EOF` means the body fit — return
`(n, nil)`; `err == nil` means the buffer filled — probe one more byte and
report `io.ErrShortBuffer` if the body has more; otherwise return the
error. -/
def dohReadResponse (body : List Nat) (cap : Nat) : Nat × Option IOErr :=
  match dohBodyLoop body cap with
  | (n, some IOErr.eof) => (n, none)
  | (n, none) => if n < body.length then (n, some IOErr.shortBuffer) else (n, none)
  | (n, some e) => (n, some e)

/-- `dohConn.Read` (doh.go): dequeue (an empty queue or an empty queued
message is `io.EOF` before any network activity); `respond` abstracts
`client.Do` (`none` = transport error, otherwise HTTP status and body).
Result: the `(n, err)` pair, the remaining queue, and whether the HTTP
round trip was invoked. -/
def dohConnRead (respond : List Nat → Option (Nat × List Nat))
    (queue : List (List Nat)) (cap : Nat) :
    (Nat × Option IOErr) × List (List Nat) × Bool :=
  match queue with
  | [] => ((0, some IOErr.eof), [], false)
  | msg :: rest =>
    if msg = [] then ((0, some IOErr.eof), rest, false)
    else
      match respond msg with
      | none => ((0, some IOErr.errOther), rest, true)
      | some (status, body) =>
        if status ≠ 200 then ((0, some IOErr.errOther), rest, true)
        else (dohReadResponse body cap, rest, true)

/-- The cache-hit branch of `cachingConn.Read` (cache.go): for a non-empty
cached response, a too-small caller buffer is `io.ErrShortBuffer` with no
bytes copied; otherwise the whole response is copied. -/
def cachingReadCacheHit (res : List Nat) (cap : Nat) : Nat × Option IOErr :=
  if cap < res.length then (0, some IOErr.shortBuffer) else (res.length, none)

/-- The stream-response branch of `cachingConn.Read` (cache.go): read the
2-byte length prefix with `io.ReadFull`, reject a too-small buffer with
`io.ErrShortBuffer` before reading the body, then read exactly `size`
bytes. -/
def readFramedTCP (stream : List Nat) (cap : Nat) : Nat × Option IOErr :=
  match stream with
  | s0 :: s1 :: rest =>
    let size := (s0 <<< 8) ||| s1
    if cap < size then (0, some IOErr.shortBuffer)
    else if rest.length < size then (rest.length, some IOErr.unexpectedEOF)
    else (size, none)
  | [] => (0, some IOErr.eof)
  | [_] => (0, some IOErr.unexpectedEOF)

/-- `dnsConn` buffer state (conn.go): `ibuf` accumulates written (framed)
queries, `obuf` buffers framed responses. -/
structure DnsConnState where
  ibuf : List Nat
  obuf : List Nat
deriving DecidableEq

/-- `dnsConn.drainBuffers` (conn.go): drain `obuf` first
(`bytes.Buffer.Read`: up to `cap` bytes); otherwise `ibuf.Next(2)` for the
length prefix (fewer than 2 bytes is `io.ErrUnexpectedEOF`), then `CopyN`
of `size` bytes (fewer available is `io.ErrUnexpectedEOF`, with the bytes
consumed). -/
def drainBuffers (st : DnsConnState) (cap : Nat) :
    List Nat × Nat × Option IOErr × DnsConnState :=
  if 0 < st.obuf.length then
    let n := min cap st.obuf.length
    ([], n, none, DnsConnState.mk st.ibuf (st.obuf.drop n))
  else
    match st.ibuf with
    | s0 :: s1 :: rest =>
      let size := (s0 <<< 8) ||| s1
      if rest.length < size then ([], 0, some IOErr.unexpectedEOF,
        DnsConnState.mk [] st.obuf)
      else (rest.take size, 0, none, DnsConnState.mk (rest.drop size) st.obuf)
    | rest => ([], 0, some IOErr.unexpectedEOF, DnsConnState.mk (rest.drop 2) st.obuf)

/-- `dnsConn.Read` (conn.go): return any drained data or error; otherwise
round-trip the de-framed query (`rt`; `none` = back-end error, returned
without enqueueing) and serve the frame via `fillBuffer`.  The Bool records
whether `c.roundTrip` was invoked. -/
def dnsConnRead (rt : List Nat → Option (List Nat)) (st : DnsConnState) (cap : Nat) :
    (Nat × Option IOErr) × DnsConnState × Bool :=
  match drainBuffers st cap with
  | (imsg, n, err, st') =>
    if n ≠ 0 ∨ err ≠ none then ((n, err), st', false)
    else
      match rt imsg with
      | none => ((0, some IOErr.errOther), st', true)
      | some omsg =>
        let ob := st'.obuf ++ frame_stream omsg
        let k := min cap ob.length
        ((k, none), DnsConnState.mk st'.ibuf (ob.drop k), true)

/-- C5 counterexample: a 13-byte HTTP response body read into a 12-byte
buffer yields `io.ErrShortBuffer` — but with `n = 12` bytes already copied
into the caller's buffer, not zero bytes. -/
theorem doh_short_buffer_partial_data :
    dohConnRead (fun _ => some (200, List.replicate 13 1)) [List.replicate 12 0] 12
      = ((12, some IOErr.shortBuffer), [], true) ∧ (12 : Nat) ≠ 0 := by
  decide

theorem dohBodyLoopAux_spec :
    ∀ (fuel : Nat) (body : List Nat) (cap n : Nat), cap - n < fuel →
      dohBodyLoopAux fuel body cap n
        = (n + min (cap - n) body.length,
           if body.length < cap - n then some IOErr.eof else none) := by
  intro fuel
  induction fuel with
  | zero => intro body cap n h; omega
  | succ fuel ih =>
    intro body cap n h
    rw [dohBodyLoopAux.eq_def]
    dsimp only
    by_cases hn : n < cap
    · rw [if_pos hn]
      cases body with
      | nil =>
        simp only [List.length_nil, Nat.min_zero, Nat.add_zero]
        rw [if_pos (by omega)]
      | cons b tl =>
        dsimp only
        rw [ih _ _ _ (by
          have : 1 ≤ min (cap - n) (b :: tl).length := by
            simp only [List.length_cons]
            omega
          omega)]
        rw [Prod.mk.injEq]
        constructor
        · rw [List.length_drop]
          omega
        · by_cases hc : (b :: tl).length < cap - n
          · rw [if_pos (by rw [List.length_drop]; omega), if_pos hc]
          · rw [if_neg (by rw [List.length_drop]; omega), if_neg hc]
    · rw [if_neg hn]
      have h0 : cap - n = 0 := by omega
      rw [h0]
      simp

/-- Closed form of the `dohConn.Read` response section: the whole body with
no error when it fits, otherwise `len(b)` bytes and `io.ErrShortBuffer`. -/
theorem dohReadResponse_spec (body : List Nat) (cap : Nat) :
    dohReadResponse body cap
      = if body.length ≤ cap then (body.length, none)
        else (cap, some IOErr.shortBuffer) := by
  rw [dohReadResponse, dohBodyLoop, dohBodyLoopAux_spec (cap + 1) body cap 0 (by omega)]
  simp only [Nat.sub_zero, Nat.zero_add]
  by_cases hc : body.length < cap
  · rw [if_pos hc]
    rw [if_pos (by omega)]
    rw [min_eq_right (by omega)]
  · rw [if_neg hc]
    by_cases he : body.length = cap
    · rw [min_eq_left (by omega)]
      dsimp only
      rw [if_neg (by omega), if_pos (by omega), he]
    · rw [min_eq_left (by omega)]
      dsimp only
      rw [if_pos (by omega), if_neg (by omega)]

/-- C5 (amended) — When a response is larger than the caller's buffer,
every path reports `io.ErrShortBuffer`, and the cache-hit and
length-prefixed TCP paths deliver zero bytes; the DoH HTTP path, however,
copies what fits first and reports the error with `n = len(b)` bytes
delivered (a truncated message is never returned *without* the
short-buffer error; and when the response fits, it is returned whole). -/
theorem short_buffer_behavior (body res stream : List Nat) (cap : Nat) :
    (cap < body.length → dohReadResponse body cap = (cap, some IOErr.shortBuffer))
    ∧ (body.length ≤ cap → dohReadResponse body cap = (body.length, none))
    ∧ (cap < res.length → cachingReadCacheHit res cap = (0, some IOErr.shortBuffer))
    ∧ (∀ s0 s1 rest, stream = s0 :: s1 :: rest → cap < ((s0 <<< 8) ||| s1) →
        readFramedTCP stream cap = (0, some IOErr.shortBuffer)) := by
  refine ⟨?_, ?_, ?_, ?_⟩
  · intro h
    rw [dohReadResponse_spec, if_neg (by omega)]
  · intro h
    rw [dohReadResponse_spec, if_pos h]
  · intro h
    rw [cachingReadCacheHit, if_pos h]
  · intro s0 s1 rest hs h
    subst hs
    rw [readFramedTCP]
    rw [if_pos h]

/-- Witness for C5 (amended) at the counterexample's sizes. -/
theorem short_buffer_behavior_witness :
    dohReadResponse (List.replicate 13 1) 12 = (12, some IOErr.shortBuffer) :=
  (short_buffer_behavior (List.replicate 13 1) [] [] 12).1 (by decide)

/-- C6 counterexample: `dnsConn.Read` on empty buffers returns
`io.ErrUnexpectedEOF` — an error distinct from the end-of-stream sentinel
`io.EOF` — without invoking the round-tripper. -/
theorem dnsconn_empty_returns_unexpectedEOF :
    dnsConnRead (fun _ => some (List.replicate 12 0)) (DnsConnState.mk [] []) 512
      = ((0, some IOErr.unexpectedEOF), DnsConnState.mk [] [], false)
    ∧ IOErr.unexpectedEOF ≠ IOErr.eof := by
  decide

/-- No complete length-prefixed message at the head of the buffer. -/
def incompleteFrame : List Nat → Bool
  | s0 :: s1 :: rest => rest.length < ((s0 <<< 8) ||| s1)
  | _ => true

/-- C6 (amended) — With no buffered response and no complete pending query,
a read performs no round trip and returns no data: `dohConn.Read` on an
empty queue returns end-of-stream (`io.EOF`) without invoking the HTTP
round-tripper; `dnsConn.Read` (stream mode) returns `io.ErrUnexpectedEOF`
— not `io.EOF` — likewise without invoking the round-tripper. -/
theorem read_no_pending_query
    (respond : List Nat → Option (Nat × List Nat))
    (rt : List Nat → Option (List Nat)) (st : DnsConnState) (cap : Nat)
    (hobuf : st.obuf = []) (hibuf : incompleteFrame st.ibuf = true) :
    dohConnRead respond [] cap = ((0, some IOErr.eof), [], false)
    ∧ (dnsConnRead rt st cap).1 = (0, some IOErr.unexpectedEOF)
    ∧ (dnsConnRead rt st cap).2.2 = false := by
  have hdrain : (drainBuffers st cap).2.1 = 0
      ∧ (drainBuffers st cap).2.2.1 = some IOErr.unexpectedEOF := by
    rw [drainBuffers, if_neg (by rw [hobuf]; simp)]
    cases hib : st.ibuf with
    | nil => simp
    | cons s0 tl =>
      cases tl with
      | nil => simp
      | cons s1 rest =>
        have hsz : rest.length < ((s0 <<< 8) ||| s1) := by
          have h2 := hibuf
          rw [hib] at h2
          simpa [incompleteFrame] using h2
        dsimp only
        rw [if_pos hsz]
        simp
  have hread : (dnsConnRead rt st cap).1 = (0, some IOErr.unexpectedEOF)
      ∧ (dnsConnRead rt st cap).2.2 = false := by
    rw [dnsConnRead]
    obtain ⟨h1, h2⟩ := hdrain
    rcases hd : drainBuffers st cap with ⟨imsg, n, err, st'⟩
    rw [hd] at h1 h2
    simp only at h1 h2
    subst h1
    subst h2
    dsimp only
    rw [if_pos (Or.inr (by simp))]
    simp
  exact ⟨rfl, hread⟩

/-- Witness for C6 (amended) at a concrete one-byte (incomplete) input
buffer. -/
theorem read_no_pending_query_witness :
    (dnsConnRead (fun _ => none) (DnsConnState.mk [0] []) 512).2.2 = false :=
  (read_no_pending_query (fun _ => none) (fun _ => none)
    (DnsConnState.mk [0] []) 512 rfl (by decide)).2.2

/-! ## Endpoint rotation (dot.go / doh.go: the dial closures over the
atomic `index`)

`s := atomic.LoadUint32(&index)` observes a value; on dial failure
`atomic.CompareAndSwapUint32(&index, s, (s+1)%uint32(len(opts.addrs)))`
advances the shared index only if it still equals the observed value.  A
burst of K concurrent failed dials executes at most K CAS steps, each with
some observed value; `casRun` folds any such sequence of steps over the
shared index, covering every interleaving. -/

def casAdvance (n observed cur : Nat) : Nat :=
  if cur = observed then (observed + 1) % n else cur

def casRun (n x : Nat) (obs : List Nat) : Nat :=
  obs.foldl (fun cur o => casAdvance n o cur) x

/-- C9 — A failed dial that observed index `i` sets the index to
`(i+1) mod N` only if it still equals `i` and otherwise leaves it
unchanged; each step advances by 0 or 1 modulo N (never retreats, never
skips); and K concurrent failed dials collectively advance the index by at
most K positions modulo N, keeping it in range. -/
theorem endpoint_rotation (n : Nat) (hn : 0 < n) (x : Nat) (hx : x < n)
    (obs : List Nat) :
    (∀ i cur, cur ≠ i → casAdvance n i cur = cur)
    ∧ (∀ i, casAdvance n i i = (i + 1) % n)
    ∧ (∀ i cur, cur < n → ∃ s ≤ 1, casAdvance n i cur = (cur + s) % n)
    ∧ (∃ s ≤ obs.length, casRun n x obs = (x + s) % n)
    ∧ casRun n x obs < n := by
  have hstep : ∀ i cur, cur < n → ∃ s ≤ 1, casAdvance n i cur = (cur + s) % n := by
    intro i cur hcur
    by_cases hc : cur = i
    · subst hc
      exact ⟨1, le_refl 1, by rw [casAdvance, if_pos rfl]⟩
    · exact ⟨0, by omega, by rw [casAdvance, if_neg hc, Nat.add_zero, Nat.mod_eq_of_lt hcur]⟩
  have hrun : ∀ (obs : List Nat) (x : Nat), x < n →
      ∃ s ≤ obs.length, casRun n x obs = (x + s) % n := by
    intro obs
    induction obs with
    | nil =>
      intro x hx
      exact ⟨0, by omega, by rw [casRun, List.foldl_nil, Nat.add_zero, Nat.mod_eq_of_lt hx]⟩
    | cons o rest ih =>
      intro x hx
      obtain ⟨s1, hs1, hstep1⟩ := hstep o x hx
      have hx' : (x + s1) % n < n := Nat.mod_lt _ hn
      obtain ⟨s2, hs2, hrun2⟩ := ih ((x + s1) % n) hx'
      refine ⟨s1 + s2, by simp only [List.length_cons]; omega, ?_⟩
      rw [casRun, List.foldl_cons]
      rw [hstep1]
      have hgoal : List.foldl (fun cur o => casAdvance n o cur) ((x + s1) % n) rest
          = ((x + s1) % n + s2) % n := hrun2
      rw [hgoal, Nat.mod_add_mod, Nat.add_assoc]
  obtain ⟨s, hs, hrun0⟩ := hrun obs x hx
  refine ⟨?_, ?_, hstep, ⟨s, hs, hrun0⟩, ?_⟩
  · intro i cur hne
    rw [casAdvance, if_neg hne]
  · intro i
    rw [casAdvance, if_pos rfl]
  · rw [hrun0]
    exact Nat.mod_lt _ hn

/-- Witness for C9 with two endpoints and three failed dials. -/
theorem endpoint_rotation_witness : casRun 2 0 [0, 0, 1] < 2 :=
  (endpoint_rotation 2 (by norm_num) 0 (by norm_num) [0, 0, 1]).2.2.2.2

end GoDNS
